import Mathlib

/-!
# Verification of the `die-stats` distribution algebra

Shallow embedding of the Rust crate `die-stats` (exact discrete probability
distributions over dice pools).  Outcome values (`i32` in the source) are
modelled as `ℤ`; chances (`f64` in the source) are modelled as `ℚ` — all the
arithmetic performed by the crate on the inputs considered here is exact
dyadic/rational arithmetic, so rational chances are a faithful model of the
computations the claims are about.

Source files embedded:
* `src/probability.rs` — the `Probability` entry and its two operators,
* `src/common.rs` — `values_to_probabilities`, `calc_mean`, `calc_variance`,
  `compress_additive`,
* `src/die.rs` — the `Die` constructors and composition operators,
* `src/drop_initializer.rs` — `prep` and `drop_by_condition`,
* `src/exploding_constructor.rs` — `exploding_die_helper` and `new_exploding`,
* `src/lib.rs` — the legacy monolithic `Die::from_range` (which panics on
  reversed bounds); its panic is modelled as `Option.none`.
-/

namespace DieStats

/-- One outcome of a distribution: `Probability { value, chance }` from
`src/probability.rs`.  `value : i32` is modelled as `ℤ`, `chance : f64` as `ℚ`. -/
structure Probability where
  value : ℤ
  chance : ℚ
deriving DecidableEq, Repr

/-- `impl Add for Probability` (`src/probability.rs` lines 28-40): values add,
chances multiply. -/
def Probability.add (a b : Probability) : Probability :=
  { value := a.value + b.value, chance := a.chance * b.chance }

/-- `impl Mul<f64> for Probability` (`src/probability.rs` lines 42-51): the
chance is scaled, the value is untouched. -/
def Probability.mul (a : Probability) (rhs : ℚ) : Probability :=
  { value := a.value, chance := a.chance * rhs }

/-- A die is its (ordered) list of probabilities: the `probabilities` field of
`struct Die` in `src/die.rs`. -/
abbrev Die := List Probability

/-- `values_to_probabilities` from `src/common.rs`: every listed value gets the
equal chance `1.0 / values.len()`. -/
def values_to_probabilities (values : List ℤ) : List Probability :=
  values.map (fun value => { value := value, chance := 1 / (values.length : ℚ) })

/-- `calc_mean` from `src/common.rs`: fold of `acc + chance * f64::from(value)`
starting at `0.0`. -/
def calc_mean (values : List Probability) : ℚ :=
  values.foldl (fun acc prob => acc + prob.chance * (prob.value : ℚ)) 0

/-- `calc_variance` from `src/common.rs`: fold of
`acc + chance * f64::from(value * value)` minus `mean * mean`. -/
def calc_variance (values : List Probability) : ℚ :=
  values.foldl (fun acc prob => acc + prob.chance * ((prob.value * prob.value : ℤ) : ℚ)) 0
    - calc_mean values * calc_mean values

/-- The chance accumulated for key `v` by the `HashMap` loop of
`compress_additive` (`src/common.rs` lines 57-65): the sum of the chances of
all input entries whose value is `v`. -/
def chanceOf (values : List Probability) (v : ℤ) : ℚ :=
  ((values.filter (fun prob => prob.value = v)).map Probability.chance).sum

/-- `compress_additive` from `src/common.rs` lines 52-76: group the entries by
value summing chances (the `HashMap` loop), then sort by value (`result.sort()`
uses the value-only `Ord` of `Probability`; the keys are pairwise distinct so
the sorted result is unique). -/
def compress_additive (values : List Probability) : List Probability :=
  (List.insertionSort (· ≤ ·) (values.map Probability.value).dedup).map
    (fun v => { value := v, chance := chanceOf values v })

/-- `Die::empty` (`src/die.rs` lines 218-225): the single entry `0` with
chance `1.0`. -/
def Die.empty : Die := [{ value := 0, chance := 1 }]

/-- `Die::from_probabilities` (`src/die.rs` lines 175-182): the empty input is
replaced by the empty (neutral) die, anything else is compressed. -/
def Die.from_probabilities (probabilities : List Probability) : Die :=
  if probabilities.isEmpty then Die.empty else compress_additive probabilities

/-- `Die::from_values` (`src/die.rs` lines 150-152). -/
def Die.from_values (values : List ℤ) : Die :=
  Die.from_probabilities (values_to_probabilities values)

/-- The list of the integers from `start` to `e`, inclusive: the Rust range
`(start..=end).collect::<Vec<i32>>()`. -/
def intRange (start e : ℤ) : List ℤ :=
  (List.range (e + 1 - start).toNat).map (fun i : ℕ => start + (i : ℤ))

/-- `Die::from_range` (`src/die.rs` lines 114-119).  The source recurses as
`from_range(end, start)` when `end < start`; that recursive call immediately
takes the non-swap branch (its bounds are in order), so the recursion is
unfolded once here. -/
def Die.from_range (start e : ℤ) : Die :=
  if e < start then Die.from_values (intRange e start)
  else Die.from_values (intRange start e)

/-- `Die::new` (`src/die.rs` lines 80-88): `0` sides gives the empty die,
otherwise the range `[1, sides]`. -/
def Die.new (sides : ℤ) : Die :=
  if sides = 0 then Die.empty else Die.from_range 1 sides

/-- The legacy `Die::from_range` of the monolithic `src/lib.rs` (lines 54-63):
it panics (`none` here) when `end < start`, and maps a single-point range to
the empty die (`end - start == 0`). -/
def legacy_from_range (start e : ℤ) : Option Die :=
  if e < start then none
  else if e - start = 0 then some Die.empty
  else some (Die.from_values (intRange start e))

/-- `add_independent` (`src/die.rs` lines 266-278): the argument's entries are
the outer loop, `self`'s the inner one, entries combined with
`Probability::add`. -/
def add_independent (self arg : Die) : Die :=
  Die.from_probabilities
    (arg.flatMap (fun outer_prob => self.map (fun inner_prob => outer_prob.add inner_prob)))

/-- `add_dependent` (`src/die.rs` lines 307-324): for each entry the callback's
die is combined entrywise with `Probability::add`. -/
def add_dependent (self : Die) (callback_fn : ℤ → Die) : Die :=
  Die.from_probabilities
    (self.flatMap (fun outer_prob =>
      (callback_fn outer_prob.value).map (fun inner_prob => outer_prob.add inner_prob)))

/-- `conditional_chain` (`src/die.rs` lines 345-361): for each entry the
callback's die is rescaled by the entry's chance (`Probability::mul`), values
untouched. -/
def conditional_chain (self : Die) (callback_fn : ℤ → Die) : Die :=
  Die.from_probabilities
    (self.flatMap (fun outer_prob =>
      (callback_fn outer_prob.value).map (fun inner_prob => inner_prob.mul outer_prob.chance)))

/-- `add_flat` (`src/die.rs` lines 379-389): every value is shifted by the
flat increase, chances kept. -/
def add_flat (self : Die) (flat_increase : ℤ) : Die :=
  Die.from_probabilities
    (self.map (fun prob => { value := prob.value + flat_increase, chance := prob.chance }))

/-- `get_min` (`src/die.rs` lines 233-239): the minimum entry (the `Ord` of
`Probability` compares values only) with the `unwrap` modelled as `Option`. -/
def get_min (self : Die) : Option ℤ :=
  (self.map Probability.value).min?

/-- `get_max` (`src/die.rs` lines 237-239), dually. -/
def get_max (self : Die) : Option ℤ :=
  (self.map Probability.value).max?

/-- `enum DropType` from `src/drop_initializer.rs`. -/
inductive DropType where
  | High
  | Low

/-- `prep` from `src/drop_initializer.rs` lines 91-134: the cross-product of
the dice's entries, built by folding one die at a time onto the first die's
singleton combinations, then each combination reduced to its value tuple and
the product of its chances. -/
def prep (probability_structs : List Die) : List (List ℤ × ℚ) :=
  match probability_structs with
  | [] => []
  | first :: rest =>
    ((rest.foldl
        (fun acc curr =>
          acc.flatMap (fun prev_val => curr.map (fun val_to_add => prev_val ++ [val_to_add])))
        (first.map (fun val => [val]))).map
      (fun combination =>
        (combination.map Probability.value,
         combination.foldl (fun chance curr => chance * curr.chance) 1)))

/-- The `for _ in 0..drop_amount { new_values.pop() }` loop of
`drop_by_condition`: remove the last element `n` times. -/
def popN : Nat → List ℤ → List ℤ
  | 0, l => l
  | n + 1, l => popN n l.dropLast

/-- `drop_by_condition` from `src/drop_initializer.rs` lines 136-168: per
combination sort the values ascending, reverse them for `DropType::Low`, pop
`drop_amount` values from the end, sum the rest; compress everything through
`from_probabilities`. -/
def drop_by_condition (probability_structs : List Die) (drop_condition : DropType)
    (drop_amount : Nat) : Die :=
  Die.from_probabilities
    ((prep probability_structs).map (fun vc =>
      let sorted := List.insertionSort (· ≤ ·) vc.1
      let arranged := match drop_condition with
        | DropType.High => sorted
        | DropType.Low => sorted.reverse
      { value := (popN drop_amount arranged).sum, chance := vc.2 }))

/-- `enum ExplodingCondition` from `src/exploding_constructor.rs`. -/
inductive ExplodingCondition where
  | Lower
  | LowerOrEqual
  | Equal
  | GreaterOrEqual
  | Greater

/-- `exploding_die_helper` from `src/exploding_constructor.rs` lines 81-99:
the generated callback compares its input against the threshold with the
chosen comparator and returns the explosion die on success, the empty
(neutral) die otherwise. -/
def exploding_die_helper (exploding_range : ℤ) (exploding_condition : ExplodingCondition)
    (exploding_die : Die) : ℤ → Die :=
  fun prob =>
    if (match exploding_condition with
      | ExplodingCondition.Lower => decide (prob < exploding_range)
      | ExplodingCondition.LowerOrEqual => decide (prob ≤ exploding_range)
      | ExplodingCondition.Equal => decide (prob = exploding_range)
      | ExplodingCondition.GreaterOrEqual => decide (prob ≥ exploding_range)
      | ExplodingCondition.Greater => decide (prob > exploding_range))
    then exploding_die
    else Die.empty

/-- `new_exploding` from `src/exploding_constructor.rs` lines 40-47:
`Die::new(sides) + helper` where `+` with a callback is `add_dependent`. -/
def new_exploding (sides exploding_range : ℤ) (exploding_condition : ExplodingCondition)
    (exploding_die : Die) : Die :=
  add_dependent (Die.new sides)
    (exploding_die_helper exploding_range exploding_condition exploding_die)

/-! ## General lemmas about compression -/

/-- A die in canonical form: entries sorted strictly ascending by value (which
also forces pairwise distinct values). -/
def canonical (l : List Probability) : Prop :=
  List.Pairwise (fun p q : Probability => p.value < q.value) l

/-- The distributions reachable through the public constructors and
composition operators of the crate. -/
inductive Constructed : Die → Prop where
  | new : ∀ sides, Constructed (Die.new sides)
  | from_range : ∀ start e, Constructed (Die.from_range start e)
  | from_values : ∀ values, Constructed (Die.from_values values)
  | from_probabilities : ∀ probabilities, Constructed (Die.from_probabilities probabilities)
  | empty : Constructed Die.empty
  | add_independent : ∀ a b, Constructed a → Constructed b → Constructed (add_independent a b)
  | add_dependent : ∀ a f, Constructed a → Constructed (add_dependent a f)
  | conditional_chain : ∀ a f, Constructed a → Constructed (conditional_chain a f)
  | add_flat : ∀ a k, Constructed a → Constructed (add_flat a k)

/-- The finitely supported chance function of an entry list; convolution of
such functions models independent combination. -/
noncomputable def toFinsupp (l : List Probability) : AddMonoidAlgebra ℚ ℤ :=
  (l.map (fun p => AddMonoidAlgebra.single p.value p.chance)).sum

/-- The raw entry list built by `add_independent` before compression. -/
def rawIndependent (self arg : Die) : List Probability :=
  arg.flatMap (fun outer_prob => self.map (fun inner_prob => outer_prob.add inner_prob))

/-- `combine_independent` as the specification words it: for every entry `a` of
`A` and every entry `b` of `B`, the entry `(a.value + b.value,
a.chance * b.chance)`, then compressed. -/
def add_independent_spec (A B : Die) : Die :=
  compress_additive
    (A.flatMap (fun a =>
      B.map (fun b => { value := a.value + b.value, chance := a.chance * b.chance })))

/-- `chain_conditional` as the specification words it: for each entry `a ∈ A`
the entries of `f(a.value)` with values unchanged and chances scaled by
`a.chance`, flattened and compressed. -/
def conditional_chain_spec (A : Die) (f : ℤ → Die) : Die :=
  compress_additive
    (A.flatMap (fun a =>
      (f a.value).map (fun b => { value := b.value, chance := b.chance * a.chance })))

theorem chanceOf_nil (v : ℤ) : chanceOf [] v = 0 := rfl

theorem chanceOf_cons (p : Probability) (l : List Probability) (v : ℤ) :
    chanceOf (p :: l) v = (if p.value = v then p.chance else 0) + chanceOf l v := by
  by_cases h : p.value = v <;> simp [chanceOf, List.filter_cons, h]

theorem chanceOf_append (l₁ l₂ : List Probability) (v : ℤ) :
    chanceOf (l₁ ++ l₂) v = chanceOf l₁ v + chanceOf l₂ v := by
  induction l₁ with
  | nil => simp [chanceOf_nil, chanceOf]
  | cons p t ih => simp only [List.cons_append, chanceOf_cons, ih]; ring

theorem chanceOf_eq_zero (l : List Probability) (v : ℤ)
    (h : v ∉ l.map Probability.value) : chanceOf l v = 0 := by
  induction l with
  | nil => rfl
  | cons p t ih =>
    simp only [List.map_cons, List.mem_cons, not_or] at h
    rw [chanceOf_cons, if_neg (fun hh => h.1 hh.symm), ih h.2, add_zero]

/-- The value column of the compressed list is the sorted deduplication of the
input's value column. -/
theorem compress_values (l : List Probability) :
    (compress_additive l).map Probability.value =
      List.insertionSort (· ≤ ·) (l.map Probability.value).dedup := by
  simp [compress_additive, List.map_map, Function.comp_def]

theorem mem_compress_values (l : List Probability) (v : ℤ) :
    v ∈ (compress_additive l).map Probability.value ↔ v ∈ l.map Probability.value := by
  rw [compress_values, (List.perm_insertionSort _ _).mem_iff, List.mem_dedup]

theorem canonical_compress (l : List Probability) : canonical (compress_additive l) := by
  unfold canonical compress_additive
  rw [List.pairwise_map]
  have hs : List.Sorted (· ≤ ·) (List.insertionSort (· ≤ ·) (l.map Probability.value).dedup) :=
    List.sorted_insertionSort _ _
  have hn : (List.insertionSort (· ≤ ·) (l.map Probability.value).dedup).Nodup :=
    (List.perm_insertionSort _ _).nodup_iff.mpr (List.nodup_dedup _)
  have := hs.lt_of_le hn
  exact this

theorem canonical_nodup_values {l : List Probability} (h : canonical l) :
    (l.map Probability.value).Nodup :=
  List.pairwise_map.mpr (h.imp fun hlt => ne_of_lt hlt)

theorem canonical_sorted_values {l : List Probability} (h : canonical l) :
    List.Sorted (· ≤ ·) (l.map Probability.value) :=
  List.pairwise_map.mpr (h.imp fun hlt => le_of_lt hlt)

theorem canonical_head_not_mem {p : Probability} {t : List Probability}
    (h : canonical (p :: t)) : p.value ∉ t.map Probability.value := by
  intro hmem
  obtain ⟨q, hq, hqv⟩ := List.mem_map.mp hmem
  exact absurd (hqv ▸ (List.pairwise_cons.mp h).1 q hq) (lt_irrefl _)

theorem chanceOf_map_mk (d : List ℤ) (g : ℤ → ℚ) (hd : d.Nodup) (v : ℤ) :
    chanceOf (d.map (fun w => { value := w, chance := g w })) v =
      if v ∈ d then g v else 0 := by
  induction d with
  | nil => simp [chanceOf_nil]
  | cons a t ih =>
    rw [List.map_cons, chanceOf_cons, ih (List.nodup_cons.mp hd).2]
    by_cases hav : a = v
    · subst hav
      rw [if_pos rfl, if_pos (List.mem_cons_self a t),
        if_neg (List.nodup_cons.mp hd).1, add_zero]
    · rw [if_neg hav, zero_add]
      by_cases hvt : v ∈ t
      · rw [if_pos hvt, if_pos (List.mem_cons_of_mem a hvt)]
      · rw [if_neg hvt, if_neg (fun hm => (List.mem_cons.mp hm).elim
          (fun he => hav he.symm) hvt)]

theorem chanceOf_compress (l : List Probability) (v : ℤ) :
    chanceOf (compress_additive l) v = chanceOf l v := by
  have hn : (List.insertionSort (· ≤ ·) (l.map Probability.value).dedup).Nodup :=
    (List.perm_insertionSort _ _).nodup_iff.mpr (List.nodup_dedup _)
  unfold compress_additive
  rw [chanceOf_map_mk _ _ hn]
  by_cases hv : v ∈ List.insertionSort (· ≤ ·) (l.map Probability.value).dedup
  · rw [if_pos hv]
  · rw [if_neg hv]
    have : v ∉ l.map Probability.value := fun hm =>
      hv ((List.perm_insertionSort _ _).mem_iff.mpr (List.mem_dedup.mpr hm))
    exact (chanceOf_eq_zero l v this).symm

theorem chanceOf_self {l : List Probability} (h : (l.map Probability.value).Nodup)
    {p : Probability} (hp : p ∈ l) : chanceOf l p.value = p.chance := by
  induction l with
  | nil => cases hp
  | cons q t ih =>
    rw [List.map_cons, List.nodup_cons] at h
    rw [chanceOf_cons]
    rcases List.mem_cons.mp hp with rfl | hpt
    · rw [if_pos rfl, chanceOf_eq_zero t _ h.1, add_zero]
    · have hq : q.value ≠ p.value := fun he => h.1 (he ▸ List.mem_map_of_mem Probability.value hpt)
      rw [if_neg hq, ih h.2 hpt, zero_add]

theorem compress_of_canonical {l : List Probability} (h : canonical l) :
    compress_additive l = l := by
  unfold compress_additive
  rw [List.dedup_eq_self.mpr (canonical_nodup_values h),
    (canonical_sorted_values h).insertionSort_eq, List.map_map]
  have : ∀ p ∈ l, ((fun v => { value := v, chance := chanceOf l v }) ∘ Probability.value) p = p := by
    intro p hp
    have hc := chanceOf_self (canonical_nodup_values h) hp
    simp [Function.comp_def, hc]
  rw [List.map_congr_left this]
  exact List.map_id' l

theorem canonical_ext : ∀ {l₁ l₂ : List Probability}, canonical l₁ → canonical l₂ →
    (∀ v, v ∈ l₁.map Probability.value ↔ v ∈ l₂.map Probability.value) →
    (∀ v, chanceOf l₁ v = chanceOf l₂ v) → l₁ = l₂ := by
  intro l₁
  induction l₁ with
  | nil =>
    intro l₂ _ _ hmem _
    cases l₂ with
    | nil => rfl
    | cons q t => exact absurd ((hmem q.value).mpr (by simp)) (by simp)
  | cons p t₁ ih =>
    intro l₂ h₁ h₂ hmem hch
    cases l₂ with
    | nil => exact absurd ((hmem p.value).mp (by simp)) (by simp)
    | cons q t₂ =>
      have hpq : p.value = q.value := by
        by_contra hne
        have h1 : p.value ∈ t₂.map Probability.value := by
          have hm := (hmem p.value).mp (by simp)
          simp only [List.map_cons, List.mem_cons] at hm
          exact hm.resolve_left hne
        have h2 : q.value ∈ t₁.map Probability.value := by
          have hm := (hmem q.value).mpr (by simp)
          simp only [List.map_cons, List.mem_cons] at hm
          exact hm.resolve_left (fun he => hne he.symm)
        obtain ⟨x, hx, hxv⟩ := List.mem_map.mp h1
        obtain ⟨y, hy, hyv⟩ := List.mem_map.mp h2
        have hlt1 : q.value < p.value := hxv ▸ (List.pairwise_cons.mp h₂).1 x hx
        have hlt2 : p.value < q.value := hyv ▸ (List.pairwise_cons.mp h₁).1 y hy
        exact absurd (hlt1.trans hlt2) (lt_irrefl _)
      have hchance : p.chance = q.chance := by
        have hcp := hch p.value
        rw [chanceOf_cons, if_pos rfl,
          chanceOf_eq_zero t₁ _ (canonical_head_not_mem h₁), add_zero] at hcp
        rw [chanceOf_cons, if_pos hpq.symm,
          chanceOf_eq_zero t₂ _ (hpq ▸ canonical_head_not_mem h₂), add_zero] at hcp
        exact hcp
      have hhead : p = q := by
        cases p; cases q
        simp only at hpq hchance
        simp [hpq, hchance]
      have htails : t₁ = t₂ := by
        apply ih (List.pairwise_cons.mp h₁).2 (List.pairwise_cons.mp h₂).2
        · intro v
          constructor
          · intro hv
            have hvl : v ∈ (q :: t₂).map Probability.value :=
              (hmem v).mp (by simp [hv])
            simp only [List.map_cons, List.mem_cons] at hvl
            rcases hvl with he | hvt
            · rw [he, ← hpq] at hv
              exact absurd hv (canonical_head_not_mem h₁)
            · exact hvt
          · intro hv
            have hvl : v ∈ (p :: t₁).map Probability.value :=
              (hmem v).mpr (by simp [hv])
            simp only [List.map_cons, List.mem_cons] at hvl
            rcases hvl with he | hvt
            · rw [he, hpq] at hv
              exact absurd hv (canonical_head_not_mem h₂)
            · exact hvt
        · intro v
          have := hch v
          rw [chanceOf_cons, chanceOf_cons, hhead] at this
          exact add_left_cancel this
      rw [hhead, htails]

/-! ## Invariants of construction -/

theorem compress_ne_nil {l : List Probability} (h : l ≠ []) : compress_additive l ≠ [] := by
  intro hc
  have : (compress_additive l).map Probability.value = [] := by rw [hc]; rfl
  rw [compress_values] at this
  have hperm := (List.perm_insertionSort (· ≤ ·) (l.map Probability.value).dedup).symm
  rw [this] at hperm
  have hd := hperm.eq_nil
  rw [List.dedup_eq_nil, List.map_eq_nil_iff] at hd
  exact h hd

theorem canonical_empty : canonical Die.empty := by
  simp [Die.empty, canonical]

theorem from_probabilities_ne_nil (l : List Probability) : Die.from_probabilities l ≠ [] := by
  unfold Die.from_probabilities
  split
  · simp [Die.empty]
  · next h => exact compress_ne_nil (fun hn => by simp [hn] at h)

theorem canonical_from_probabilities (l : List Probability) :
    canonical (Die.from_probabilities l) := by
  unfold Die.from_probabilities
  split
  · exact canonical_empty
  · exact canonical_compress l

/-- Every constructed die is either the empty die or routed through
`from_probabilities`. -/
theorem constructed_shape {d : Die} (h : Constructed d) :
    d = Die.empty ∨ ∃ l, d = Die.from_probabilities l := by
  induction h with
  | new sides =>
    unfold Die.new
    split
    · exact Or.inl rfl
    · unfold Die.from_range
      split <;> exact Or.inr ⟨_, rfl⟩
  | from_range start e =>
    unfold Die.from_range
    split <;> exact Or.inr ⟨_, rfl⟩
  | from_values values => exact Or.inr ⟨_, rfl⟩
  | from_probabilities probabilities => exact Or.inr ⟨_, rfl⟩
  | empty => exact Or.inl rfl
  | add_independent a b _ _ _ _ => exact Or.inr ⟨_, rfl⟩
  | add_dependent a f _ _ => exact Or.inr ⟨_, rfl⟩
  | conditional_chain a f _ _ => exact Or.inr ⟨_, rfl⟩
  | add_flat a k _ _ => exact Or.inr ⟨_, rfl⟩

theorem constructed_ne_nil {d : Die} (h : Constructed d) : d ≠ [] := by
  rcases constructed_shape h with rfl | ⟨l, rfl⟩
  · simp [Die.empty]
  · exact from_probabilities_ne_nil l

theorem constructed_canonical {d : Die} (h : Constructed d) : canonical d := by
  rcases constructed_shape h with rfl | ⟨l, rfl⟩
  · exact canonical_empty
  · exact canonical_from_probabilities l

/-! ## The chance function as an element of `AddMonoidAlgebra ℚ ℤ`

Independent combination of dice is convolution of their chance functions, so
the commutativity and associativity of `add_independent` reduce to those of
the multiplication of `AddMonoidAlgebra ℚ ℤ`. -/

theorem toFinsupp_nil : toFinsupp [] = 0 := rfl

theorem toFinsupp_cons (p : Probability) (l : List Probability) :
    toFinsupp (p :: l) = AddMonoidAlgebra.single p.value p.chance + toFinsupp l := by
  simp [toFinsupp]

theorem toFinsupp_apply (l : List Probability) (v : ℤ) : toFinsupp l v = chanceOf l v := by
  induction l with
  | nil => rw [toFinsupp_nil, chanceOf_nil]; rfl
  | cons p t ih =>
    rw [toFinsupp_cons, chanceOf_cons, ← ih]
    have hadd : (AddMonoidAlgebra.single p.value p.chance + toFinsupp t) v =
        AddMonoidAlgebra.single p.value p.chance v + toFinsupp t v := rfl
    rw [hadd, AddMonoidAlgebra.single_apply]

theorem toFinsupp_append (l₁ l₂ : List Probability) :
    toFinsupp (l₁ ++ l₂) = toFinsupp l₁ + toFinsupp l₂ := by
  simp [toFinsupp]

theorem toFinsupp_compress (l : List Probability) :
    toFinsupp (compress_additive l) = toFinsupp l :=
  Finsupp.ext fun v => by rw [toFinsupp_apply, toFinsupp_apply, chanceOf_compress]

theorem toFinsupp_map_add (o : Probability) (l : List Probability) :
    toFinsupp (l.map (fun i => o.add i)) =
      AddMonoidAlgebra.single o.value o.chance * toFinsupp l := by
  induction l with
  | nil => rw [List.map_nil, toFinsupp_nil, mul_zero]
  | cons i t ih =>
    rw [List.map_cons, toFinsupp_cons, toFinsupp_cons, mul_add, ih,
      AddMonoidAlgebra.single_mul_single]
    rfl

theorem add_independent_def (self arg : Die) :
    add_independent self arg = Die.from_probabilities (rawIndependent self arg) := rfl

theorem toFinsupp_rawIndependent (self arg : Die) :
    toFinsupp (rawIndependent self arg) = toFinsupp arg * toFinsupp self := by
  induction arg with
  | nil => rw [toFinsupp_nil, zero_mul]; rfl
  | cons o t ih =>
    have hcons : rawIndependent self (o :: t) =
        (self.map (fun i => o.add i)) ++ rawIndependent self t := by
      simp [rawIndependent]
    rw [hcons, toFinsupp_append, toFinsupp_map_add, ih, toFinsupp_cons, add_mul]

theorem rawIndependent_ne_nil {self arg : Die} (hs : self ≠ []) (ha : arg ≠ []) :
    rawIndependent self arg ≠ [] := by
  cases arg with
  | nil => exact absurd rfl ha
  | cons o t =>
    have hmap : self.map (fun i => o.add i) ≠ [] := by
      simpa [List.map_eq_nil_iff] using hs
    have hcons : rawIndependent self (o :: t) =
        (self.map (fun i => o.add i)) ++ rawIndependent self t := by
      simp [rawIndependent]
    rw [hcons]
    intro hnil
    exact hmap (List.append_eq_nil.mp hnil).1

theorem add_independent_eq_compress {self arg : Die} (hs : self ≠ []) (ha : arg ≠ []) :
    add_independent self arg = compress_additive (rawIndependent self arg) := by
  rw [add_independent_def]
  unfold Die.from_probabilities
  rw [if_neg]
  simp [List.isEmpty_iff, rawIndependent_ne_nil hs ha]

theorem add_independent_ne_nil (self arg : Die) : add_independent self arg ≠ [] :=
  from_probabilities_ne_nil _

theorem canonical_add_independent (self arg : Die) : canonical (add_independent self arg) :=
  canonical_from_probabilities _

theorem chanceOf_add_independent {self arg : Die} (hs : self ≠ []) (ha : arg ≠ []) (v : ℤ) :
    chanceOf (add_independent self arg) v = (toFinsupp arg * toFinsupp self) v := by
  rw [add_independent_eq_compress hs ha, chanceOf_compress, ← toFinsupp_apply,
    toFinsupp_rawIndependent]

theorem mem_values_rawIndependent (self arg : Die) (v : ℤ) :
    v ∈ (rawIndependent self arg).map Probability.value ↔
      ∃ w₁ ∈ arg.map Probability.value, ∃ w₂ ∈ self.map Probability.value, v = w₁ + w₂ := by
  simp only [rawIndependent, List.map_flatMap, List.mem_flatMap, List.map_map, List.mem_map,
    Function.comp_def, Probability.add]
  constructor
  · rintro ⟨o, ho, i, hi, rfl⟩
    exact ⟨o.value, ⟨o, ho, rfl⟩, i.value, ⟨i, hi, rfl⟩, rfl⟩
  · rintro ⟨w₁, ⟨o, ho, rfl⟩, w₂, ⟨i, hi, rfl⟩, rfl⟩
    exact ⟨o, ho, i, hi, rfl⟩

theorem mem_values_add_independent {self arg : Die} (hs : self ≠ []) (ha : arg ≠ []) (v : ℤ) :
    v ∈ (add_independent self arg).map Probability.value ↔
      ∃ w₁ ∈ arg.map Probability.value, ∃ w₂ ∈ self.map Probability.value, v = w₁ + w₂ := by
  rw [add_independent_eq_compress hs ha, mem_compress_values, mem_values_rawIndependent]

theorem toFinsupp_add_independent {self arg : Die} (hs : self ≠ []) (ha : arg ≠ []) :
    toFinsupp (add_independent self arg) = toFinsupp arg * toFinsupp self := by
  rw [add_independent_eq_compress hs ha, toFinsupp_compress, toFinsupp_rawIndependent]

theorem add_independent_spec_eq_raw (A B : Die) :
    add_independent_spec A B = compress_additive (rawIndependent B A) := rfl

/-- C2: for every pair of distributions `A` and `B`, `add_independent A B` is
the compression of the multiset of entries `(a.value + b.value,
a.chance * b.chance)` over all pairs of entries `a ∈ A`, `b ∈ B`. -/
theorem add_independent_correct (A B : Die) (hA : A ≠ []) (hB : B ≠ []) :
    add_independent A B = add_independent_spec A B := by
  rw [add_independent_spec_eq_raw, add_independent_eq_compress hA hB]
  apply canonical_ext (canonical_compress _) (canonical_compress _)
  · intro v
    rw [mem_compress_values, mem_compress_values, mem_values_rawIndependent,
      mem_values_rawIndependent]
    constructor
    · rintro ⟨w₁, h₁, w₂, h₂, rfl⟩
      exact ⟨w₂, h₂, w₁, h₁, add_comm _ _⟩
    · rintro ⟨w₁, h₁, w₂, h₂, rfl⟩
      exact ⟨w₂, h₂, w₁, h₁, add_comm _ _⟩
  · intro v
    rw [chanceOf_compress, chanceOf_compress, ← toFinsupp_apply, ← toFinsupp_apply,
      toFinsupp_rawIndependent, toFinsupp_rawIndependent, mul_comm]

theorem add_independent_correct_witness :
    ([{ value := 1, chance := 1/2 }, { value := 2, chance := 1/2 }] : Die) ≠ [] ∧
      add_independent [{ value := 1, chance := 1/2 }, { value := 2, chance := 1/2 }]
          [{ value := 3, chance := 1 }] =
        add_independent_spec [{ value := 1, chance := 1/2 }, { value := 2, chance := 1/2 }]
          [{ value := 3, chance := 1 }] :=
  ⟨by simp, add_independent_correct _ _ (by simp) (by simp)⟩

/-- C7: independent combination is commutative and associative up to
compression (the operands must be distributions, i.e. non-empty entry
lists). -/
theorem add_independent_comm_assoc (A B C : Die) (hA : A ≠ []) (hB : B ≠ []) (hC : C ≠ []) :
    add_independent A B = add_independent B A ∧
      add_independent (add_independent A B) C = add_independent A (add_independent B C) := by
  constructor
  · apply canonical_ext (canonical_add_independent A B) (canonical_add_independent B A)
    · intro v
      rw [mem_values_add_independent hA hB, mem_values_add_independent hB hA]
      constructor
      · rintro ⟨w₁, h₁, w₂, h₂, rfl⟩
        exact ⟨w₂, h₂, w₁, h₁, add_comm _ _⟩
      · rintro ⟨w₁, h₁, w₂, h₂, rfl⟩
        exact ⟨w₂, h₂, w₁, h₁, add_comm _ _⟩
    · intro v
      rw [chanceOf_add_independent hA hB, chanceOf_add_independent hB hA, mul_comm]
  · have hAB : add_independent A B ≠ [] := add_independent_ne_nil A B
    have hBC : add_independent B C ≠ [] := add_independent_ne_nil B C
    apply canonical_ext (canonical_add_independent _ _) (canonical_add_independent _ _)
    · intro v
      rw [mem_values_add_independent hAB hC, mem_values_add_independent hA hBC]
      constructor
      · rintro ⟨w₁, h₁, w₂, h₂, rfl⟩
        rw [mem_values_add_independent hA hB] at h₂
        obtain ⟨u₁, hu₁, u₂, hu₂, rfl⟩ := h₂
        refine ⟨w₁ + u₁, ?_, u₂, hu₂, by ring⟩
        rw [mem_values_add_independent hB hC]
        exact ⟨w₁, h₁, u₁, hu₁, rfl⟩
      · rintro ⟨w₁, h₁, w₂, h₂, rfl⟩
        rw [mem_values_add_independent hB hC] at h₁
        obtain ⟨u₁, hu₁, u₂, hu₂, rfl⟩ := h₁
        refine ⟨u₁, hu₁, u₂ + w₂, ?_, by ring⟩
        rw [mem_values_add_independent hA hB]
        exact ⟨u₂, hu₂, w₂, h₂, rfl⟩
    · intro v
      rw [chanceOf_add_independent hAB hC, chanceOf_add_independent hA hBC,
        toFinsupp_add_independent hA hB, toFinsupp_add_independent hB hC, mul_assoc]

theorem add_independent_comm_assoc_witness :
    ([{ value := 1, chance := 1 }] : Die) ≠ [] ∧
      (add_independent [{ value := 1, chance := 1 }] [{ value := 2, chance := 1 }] =
          add_independent [{ value := 2, chance := 1 }] [{ value := 1, chance := 1 }] ∧
        add_independent
            (add_independent [{ value := 1, chance := 1 }] [{ value := 2, chance := 1 }])
            [{ value := 3, chance := 1 }] =
          add_independent [{ value := 1, chance := 1 }]
            (add_independent [{ value := 2, chance := 1 }] [{ value := 3, chance := 1 }])) :=
  ⟨by simp, add_independent_comm_assoc _ _ _ (by simp) (by simp) (by simp)⟩

/-- C1: evaluating the pool of three 2-sided dice with drop-the-lowest and
drop count 1 yields value 2 with chance 0.125, value 3 with chance 0.375 and
value 4 with chance 0.5. -/
theorem drop_lowest_three_d2 :
    drop_by_condition [Die.new 2, Die.new 2, Die.new 2] DropType.Low 1 =
      [{ value := 2, chance := 1/8 }, { value := 3, chance := 3/8 },
       { value := 4, chance := 1/2 }] := by
  have hr : List.range 2 = [0, 1] := by decide
  simp [drop_by_condition, prep, popN, Die.new, Die.from_range, Die.from_values,
    values_to_probabilities, intRange, Die.from_probabilities, Die.empty,
    compress_additive, chanceOf, hr, Int.toNat_ofNat,
    List.insertionSort, List.orderedInsert, List.filter]
  norm_num

/-- C3: `from_probabilities` maps the empty entry list to the neutral
distribution — the single entry of value `0` with chance `1.0` — and returns a
non-empty distribution on every input; it has no failure path. -/
theorem from_probabilities_total :
    Die.from_probabilities [] = [{ value := 0, chance := 1 }] ∧
      ∀ probabilities, Die.from_probabilities probabilities ≠ [] :=
  ⟨rfl, from_probabilities_ne_nil⟩

theorem intRange_pairwise (start e : ℤ) : List.Pairwise (· < ·) (intRange start e) := by
  unfold intRange
  exact (List.pairwise_lt_range _).map (fun i : ℕ => start + (i : ℤ))
    (fun a b hab => by
      show start + (a : ℤ) < start + (b : ℤ)
      omega)

theorem intRange_length (start e : ℤ) : (intRange start e).length = (e + 1 - start).toNat := by
  unfold intRange
  rw [List.length_map, List.length_range]

/-- For ordered bounds, `from_range` is literally the uniform list over the
inclusive range with chance `1/(e - start + 1)` each. -/
theorem from_range_uniform (start e : ℤ) (h : start ≤ e) :
    Die.from_range start e =
      (intRange start e).map
        (fun v => { value := v, chance := 1 / ((e - start + 1 : ℤ) : ℚ) }) := by
  have hlen : ((intRange start e).length : ℚ) = ((e - start + 1 : ℤ) : ℚ) := by
    rw [intRange_length]
    have hnn : (0 : ℤ) ≤ e + 1 - start := by omega
    have : (((e + 1 - start).toNat : ℤ) : ℚ) = ((e + 1 - start : ℤ) : ℚ) := by
      rw [Int.toNat_of_nonneg hnn]
    push_cast at this ⊢
    rw [this]
    ring
  have hform : values_to_probabilities (intRange start e) =
      (intRange start e).map
        (fun v => { value := v, chance := 1 / ((e - start + 1 : ℤ) : ℚ) }) := by
    unfold values_to_probabilities
    rw [hlen]
  have hcanon : canonical ((intRange start e).map
      (fun v => { value := v, chance := 1 / ((e - start + 1 : ℤ) : ℚ) })) := by
    unfold canonical
    rw [List.pairwise_map]
    exact intRange_pairwise start e
  have hnil : intRange start e ≠ [] := by
    intro hn
    have hl := intRange_length start e
    rw [hn] at hl
    simp only [List.length_nil] at hl
    omega
  rw [Die.from_range, if_neg (not_lt.mpr h), Die.from_values, hform,
    Die.from_probabilities, if_neg]
  · exact compress_of_canonical hcanon
  · simp [List.isEmpty_iff, List.map_eq_nil_iff, hnil]

/-- C4: the `from_range` of `die.rs`/`normal_initializer.rs` silently swaps
reversed bounds (`from_range start e = from_range e start`, the uniform die
over `[e, start]` with chance `1/(start - e + 1)` each), but the legacy
`Die::from_range` of `src/lib.rs` panics on reversed bounds: at
`start = 1, end = 0` it fails where the claim demands success. -/
theorem from_range_reversed_bounds :
    legacy_from_range 1 0 = none ∧
      (∀ start e : ℤ, Die.from_range start e = Die.from_range e start) ∧
      ∀ start e : ℤ, e < start →
        Die.from_range start e =
          (intRange e start).map
            (fun v => { value := v, chance := 1 / ((start - e + 1 : ℤ) : ℚ) }) := by
  have hswap : ∀ start e : ℤ, Die.from_range start e = Die.from_range e start := by
    intro s e
    unfold Die.from_range
    rcases lt_trichotomy e s with h | h | h
    · rw [if_pos h, if_neg (not_lt.mpr h.le)]
    · rw [h]
    · rw [if_neg (not_lt.mpr h.le), if_pos h]
  refine ⟨rfl, hswap, fun s e h => ?_⟩
  rw [hswap s e, from_range_uniform e s h.le]

theorem from_range_reversed_bounds_witness :
    (0 : ℤ) < 1 ∧
      Die.from_range 1 0 =
        (intRange 0 1).map
          (fun v => { value := v, chance := 1 / ((1 - 0 + 1 : ℤ) : ℚ) }) :=
  ⟨by decide, from_range_reversed_bounds.2.2 1 0 (by decide)⟩

theorem flatMap_map_ne_nil {A : Die} (hA : A ≠ []) (g : Probability → Die)
    (hg : ∀ a, g a ≠ []) : A.flatMap g ≠ [] := by
  cases A with
  | nil => exact absurd rfl hA
  | cons a t =>
    rw [List.flatMap_cons]
    intro hnil
    exact hg a (List.append_eq_nil.mp hnil).1

/-- C5: for every distribution `A` and every callback `f` returning
distributions, `conditional_chain A f` is the compression of the multiset of
entries `(b.value, b.chance * a.chance)` for `a ∈ A` and `b ∈ f a.value`:
follow-up values are kept unchanged, only chances are scaled. -/
theorem conditional_chain_correct (A : Die) (f : ℤ → Die) (hA : A ≠ [])
    (hf : ∀ v, f v ≠ []) : conditional_chain A f = conditional_chain_spec A f := by
  unfold conditional_chain conditional_chain_spec Die.from_probabilities
  rw [if_neg]
  · rfl
  · intro hempty
    rw [List.isEmpty_iff] at hempty
    exact flatMap_map_ne_nil hA _ (fun a => by
      simpa [List.map_eq_nil_iff] using hf a.value) hempty

theorem conditional_chain_correct_witness :
    ([{ value := 1, chance := 1 }] : Die) ≠ [] ∧
      conditional_chain [{ value := 1, chance := 1 }]
          (fun _ => [{ value := 5, chance := 1 }]) =
        conditional_chain_spec [{ value := 1, chance := 1 }]
          (fun _ => [{ value := 5, chance := 1 }]) :=
  ⟨by simp, conditional_chain_correct _ _ (by simp) (fun _ => by simp)⟩

/-- C6: the exploding die built from a 2-sided base, threshold 1, comparator
less-or-equal and a 2-sided explosion die is value 2 with chance 0.75 and
value 3 with chance 0.25; and in general the generated callback returns the
explosion die when the comparator holds against the threshold and the neutral
distribution otherwise. -/
theorem new_exploding_correct :
    new_exploding 2 1 ExplodingCondition.LowerOrEqual (Die.new 2) =
        [{ value := 2, chance := 3/4 }, { value := 3, chance := 1/4 }] ∧
      ∀ (r : ℤ) (d : Die) (v : ℤ),
        exploding_die_helper r ExplodingCondition.Lower d v =
            (if v < r then d else Die.empty) ∧
          exploding_die_helper r ExplodingCondition.LowerOrEqual d v =
            (if v ≤ r then d else Die.empty) ∧
          exploding_die_helper r ExplodingCondition.Equal d v =
            (if v = r then d else Die.empty) ∧
          exploding_die_helper r ExplodingCondition.GreaterOrEqual d v =
            (if r ≤ v then d else Die.empty) ∧
          exploding_die_helper r ExplodingCondition.Greater d v =
            (if r < v then d else Die.empty) := by
  constructor
  · have hr : List.range 2 = [0, 1] := by decide
    simp [new_exploding, add_dependent, exploding_die_helper, Die.new, Die.from_range,
      Die.from_values, values_to_probabilities, intRange, Die.from_probabilities, Die.empty,
      compress_additive, chanceOf, Probability.add, hr, Int.toNat_ofNat,
      List.insertionSort, List.orderedInsert, List.filter]
    norm_num
  · intro r d v
    refine ⟨?_, ?_, ?_, ?_, ?_⟩ <;> simp [exploding_die_helper, ge_iff_le, GT.gt]

/-- C10: every distribution produced by a public constructor or composition
operator has a non-empty entry list, sorted strictly ascending by value, with
each value occurring at most once. -/
theorem constructed_invariant {d : Die} (h : Constructed d) :
    d ≠ [] ∧ List.Sorted (· < ·) (d.map Probability.value) ∧
      (d.map Probability.value).Nodup :=
  ⟨constructed_ne_nil h, List.pairwise_map.mpr (constructed_canonical h),
    canonical_nodup_values (constructed_canonical h)⟩

theorem constructed_invariant_witness :
    Constructed (Die.new 2) ∧
      (Die.new 2 ≠ [] ∧ List.Sorted (· < ·) ((Die.new 2).map Probability.value) ∧
        ((Die.new 2).map Probability.value).Nodup) :=
  ⟨Constructed.new 2, constructed_invariant (Constructed.new 2)⟩

/-- C9: on every constructed distribution, `get_min` returns the smallest and
`get_max` the largest value among the entries; the `unwrap` inside them cannot
fail because the entry list is never empty. -/
theorem get_min_get_max_safe {d : Die} (h : Constructed d) :
    ∃ m M : ℤ, get_min d = some m ∧ get_max d = some M ∧
      m ∈ d.map Probability.value ∧ M ∈ d.map Probability.value ∧
      ∀ v ∈ d.map Probability.value, m ≤ v ∧ v ≤ M := by
  have hvals : d.map Probability.value ≠ [] := by
    simpa [List.map_eq_nil_iff] using constructed_ne_nil h
  obtain ⟨m, hm⟩ : ∃ m, (d.map Probability.value).min? = some m := by
    cases hmin : (d.map Probability.value).min? with
    | none => exact absurd (List.min?_eq_none_iff.mp hmin) hvals
    | some m => exact ⟨m, rfl⟩
  obtain ⟨M, hM⟩ : ∃ M, (d.map Probability.value).max? = some M := by
    cases hmax : (d.map Probability.value).max? with
    | none => exact absurd (List.max?_eq_none_iff.mp hmax) hvals
    | some M => exact ⟨M, rfl⟩
  haveI : Std.Antisymm (fun x1 x2 : ℤ => x1 ≤ x2) :=
    ⟨fun h h2 => le_antisymm h h2⟩
  have hm' := (List.min?_eq_some_iff (fun a : ℤ => le_refl a) (fun a b => min_choice a b)
    (fun a b c => le_min_iff)).mp hm
  have hM' := (List.max?_eq_some_iff (fun a : ℤ => le_refl a) (fun a b => max_choice a b)
    (fun a b c => max_le_iff)).mp hM
  exact ⟨m, M, hm, hM, hm'.1, hM'.1, fun v hv => ⟨hm'.2 v hv, hM'.2 v hv⟩⟩

theorem get_min_get_max_safe_witness :
    Constructed (Die.new 2) ∧
      ∃ m M : ℤ, get_min (Die.new 2) = some m ∧ get_max (Die.new 2) = some M ∧
        m ∈ (Die.new 2).map Probability.value ∧ M ∈ (Die.new 2).map Probability.value ∧
        ∀ v ∈ (Die.new 2).map Probability.value, m ≤ v ∧ v ≤ M :=
  ⟨Constructed.new 2, get_min_get_max_safe (Constructed.new 2)⟩

/-! ## The uniform die and its moments -/

theorem foldl_add_map (f : Probability → ℚ) (l : List Probability) (a : ℚ) :
    l.foldl (fun acc p => acc + f p) a = a + (l.map f).sum := by
  induction l generalizing a with
  | nil => simp
  | cons p t ih => rw [List.foldl_cons, ih, List.map_cons, List.sum_cons]; ring

theorem calc_mean_eq_sum (l : List Probability) :
    calc_mean l = (l.map (fun p => p.chance * (p.value : ℚ))).sum := by
  rw [calc_mean, foldl_add_map, zero_add]

theorem calc_variance_eq_sum (l : List Probability) :
    calc_variance l = (l.map (fun p => p.chance * ((p.value * p.value : ℤ) : ℚ))).sum
      - calc_mean l * calc_mean l := by
  rw [calc_variance, foldl_add_map, zero_add]

theorem intRange_one (n : ℕ) :
    intRange 1 (n : ℤ) = (List.range n).map (fun i : ℕ => 1 + (i : ℤ)) := by
  unfold intRange
  rw [(by omega : ((n : ℤ) + 1 - 1).toNat = n)]

theorem intRange_one_pairwise (n : ℕ) : List.Pairwise (· < ·) (intRange 1 (n : ℤ)) := by
  rw [intRange_one]
  exact (List.pairwise_lt_range n).map (fun i : ℕ => 1 + (i : ℤ))
    (fun a b hab => by
      show 1 + (a : ℤ) < 1 + (b : ℤ)
      omega)

/-- For positive `n`, `Die::new n` is literally the uniform list over
`1..=n` with chance `1/n` each. -/
theorem die_new_uniform (n : ℕ) (h : 0 < n) :
    Die.new (n : ℤ) =
      (intRange 1 (n : ℤ)).map (fun v => { value := v, chance := 1 / (n : ℚ) }) := by
  have hne : (n : ℤ) ≠ 0 := by exact_mod_cast Nat.pos_iff_ne_zero.mp h
  have hlen : (intRange 1 (n : ℤ)).length = n := by
    rw [intRange_one, List.length_map, List.length_range]
  have hform : values_to_probabilities (intRange 1 (n : ℤ)) =
      (intRange 1 (n : ℤ)).map (fun v => { value := v, chance := 1 / (n : ℚ) }) := by
    unfold values_to_probabilities
    rw [hlen]
  have hcanon : canonical ((intRange 1 (n : ℤ)).map
      (fun v => { value := v, chance := 1 / (n : ℚ) })) := by
    unfold canonical
    rw [List.pairwise_map]
    exact intRange_one_pairwise n
  have hnil : intRange 1 (n : ℤ) ≠ [] := by
    intro hn
    have := hlen
    rw [hn] at this
    exact Nat.pos_iff_ne_zero.mp h this.symm
  rw [Die.new, if_neg hne, Die.from_range, if_neg (by omega : ¬ (n : ℤ) < 1),
    Die.from_values, hform, Die.from_probabilities, if_neg]
  · exact compress_of_canonical hcanon
  · simp [List.isEmpty_iff, List.map_eq_nil_iff, hnil]

theorem sum_range_shift (n : ℕ) :
    ((List.range n).map (fun i : ℕ => (1 : ℚ) + i)).sum = n * (n + 1) / 2 := by
  induction n with
  | zero => simp
  | succ m ih =>
    rw [List.range_succ, List.map_append, List.sum_append, ih]
    simp only [List.map_cons, List.map_nil, List.sum_cons, List.sum_nil]
    push_cast
    ring

theorem sum_range_shift_sq (n : ℕ) :
    ((List.range n).map (fun i : ℕ => ((1 : ℚ) + i) * ((1 : ℚ) + i))).sum =
      n * (n + 1) * (2 * n + 1) / 6 := by
  induction n with
  | zero => simp
  | succ m ih =>
    rw [List.range_succ, List.map_append, List.sum_append, ih]
    simp only [List.map_cons, List.map_nil, List.sum_cons, List.sum_nil]
    push_cast
    ring

/-- C8: the uniform `N`-sided die built by `new(N)` has mean `(N+1)/2` and
variance `(N^2-1)/12` as computed by `calc_mean`/`calc_variance`
(in particular for `N = 6` the mean is `3.5`). -/
theorem uniform_mean_variance (n : ℕ) (h : 0 < n) :
    calc_mean (Die.new (n : ℤ)) = ((n : ℚ) + 1) / 2 ∧
      calc_variance (Die.new (n : ℤ)) = ((n : ℚ) ^ 2 - 1) / 12 := by
  have hn : (n : ℚ) ≠ 0 := by exact_mod_cast Nat.pos_iff_ne_zero.mp h
  have hmean : calc_mean (Die.new (n : ℤ)) = ((n : ℚ) + 1) / 2 := by
    rw [die_new_uniform n h, calc_mean_eq_sum, List.map_map, intRange_one, List.map_map]
    have hfun : (((fun p : Probability => p.chance * (p.value : ℚ)) ∘
        (fun v => ({ value := v, chance := 1 / (n : ℚ) } : Probability))) ∘
        (fun i : ℕ => 1 + (i : ℤ))) = fun i : ℕ => (1 / (n : ℚ)) * ((1 : ℚ) + i) := by
      funext i
      simp only [Function.comp_def]
      push_cast
      ring
    rw [hfun, List.sum_map_mul_left, sum_range_shift]
    field_simp
  refine ⟨hmean, ?_⟩
  rw [calc_variance_eq_sum, hmean]
  rw [die_new_uniform n h, List.map_map, intRange_one, List.map_map]
  have hfun : (((fun p : Probability => p.chance * ((p.value * p.value : ℤ) : ℚ)) ∘
      (fun v => ({ value := v, chance := 1 / (n : ℚ) } : Probability))) ∘
      (fun i : ℕ => 1 + (i : ℤ))) =
      fun i : ℕ => (1 / (n : ℚ)) * (((1 : ℚ) + i) * ((1 : ℚ) + i)) := by
    funext i
    simp only [Function.comp_def]
    push_cast
    ring
  rw [hfun, List.sum_map_mul_left, sum_range_shift_sq]
  field_simp
  ring

theorem uniform_mean_variance_witness :
    0 < 6 ∧ calc_mean (Die.new ((6 : ℕ) : ℤ)) = ((6 : ℚ) + 1) / 2 ∧
      calc_variance (Die.new ((6 : ℕ) : ℤ)) = ((6 : ℚ) ^ 2 - 1) / 12 :=
  ⟨by decide, uniform_mean_variance 6 (by decide)⟩

end DieStats
